import Mathlib

/-!
Verification of the KnowPilot front end (outline editor, position manager and
streaming article generator).  Each JavaScript function that the properties
below mention is embedded shallowly: strings become `List Char`, DOM node lists
become Lean lists, network outcomes become explicit arguments, and the small
regular expressions used by the outline code are embedded with the exact
backtracking behaviour of the JavaScript engine.
-/

/-- Character class of the ECMAScript `LineTerminator` set, the characters the
regexp metacharacter `.` does NOT match: LF, CR, U+2028, U+2029. -/
def isLineTerm (c : Char) : Bool :=
  c = '\n' || c = '\r' || c.toNat = 0x2028 || c.toNat = 0x2029

/-- Character class of the ECMAScript `\s` metacharacter (also the set trimmed
by `String.prototype.trim`): WhiteSpace plus LineTerminator. -/
def isWhitespaceJS (c : Char) : Bool :=
  c = ' ' || c = '\t' || c.toNat = 0x0B || c.toNat = 0x0C ||
  c.toNat = 0xA0 || c.toNat = 0x1680 ||
  (0x2000 ≤ c.toNat && c.toNat ≤ 0x200A) ||
  c.toNat = 0x202F || c.toNat = 0x205F || c.toNat = 0x3000 ||
  c.toNat = 0xFEFF || isLineTerm c

/-- Embedding of `String.prototype.trim`: drop JS whitespace from both ends. -/
def jsTrim (t : List Char) : List Char :=
  ((t.dropWhile isWhitespaceJS).reverse.dropWhile isWhitespaceJS).reverse

/-- Every character of the list can be matched by the regexp metacharacter `.`
(no line terminators). -/
def noLineTerm (l : List Char) : Bool := l.all (fun c => !isLineTerm c)

/-- Length of the leading run of `'#'` characters, the text a greedy `#+`
matches first. -/
def hashRun : List Char → Nat
  | [] => 0
  | c :: rest => if c = '#' then hashRun rest + 1 else 0

/-- Embedding of matching `\s*(.+)$` against the remainder of a line, with the
JavaScript backtracking order: `\s*` is greedy, and `(.+)` must reach the end
of the string, so on failure `\s*` gives characters back one at a time.
Returns the text captured by `(.+)`. -/
def matchTail : List Char → Option (List Char)
  | [] => none
  | c :: rest =>
    if isWhitespaceJS c then
      match matchTail rest with
      | some t => some t
      | none => if noLineTerm (c :: rest) then some (c :: rest) else none
    else if noLineTerm (c :: rest) then some (c :: rest) else none

/-- Backtracking of the greedy `(#+)` group of `/^(#+)\s*(.+)$/`: try the run
length `k` first, then shorter runs. -/
def tryHash : Nat → List Char → Option (Nat × List Char)
  | 0, _ => none
  | k + 1, s =>
    match matchTail (s.drop (k + 1)) with
    | some t => some (k + 1, t)
    | none => tryHash k s

/-- Embedding of `line.match(/^(#+)\s*(.+)$/)`, returning the heading level
(length of the `(#+)` group) and the text captured by `(.+)`. -/
def matchHeading (s : List Char) : Option (Nat × List Char) :=
  tryHash (hashRun s) s

/-- Embedding of the filter `/^#+\s/.test(line)` used by
`displayOutlineInSidebar` in `send_topic.js`. -/
def headingTest (s : List Char) : Bool :=
  decide (0 < hashRun s) &&
    (match s.drop (hashRun s) with
     | c :: _ => isWhitespaceJS c
     | [] => false)

/-- JavaScript numeric array cell: a nonnegative integer counter, `NaN`, or a
hole read as `undefined`. -/
inductive JSVal where
  | num (n : Nat)
  | nan
  | undef
deriving DecidableEq, Repr

/-- Reading `a[i]`: out-of-bounds reads give `undefined`. -/
def jsGet (a : List JSVal) (i : Nat) : JSVal := a.getD i JSVal.undef

/-- Writing `a[i] = v`: writing past the end extends the array with holes. -/
def jsSet (a : List JSVal) (i : Nat) (v : JSVal) : List JSVal :=
  if i < a.length then a.set i v
  else a ++ List.replicate (i - a.length) JSVal.undef ++ [v]

/-- The `++` operator: `undefined++` and `NaN++` both store `NaN`. -/
def jsIncr : JSVal → JSVal
  | .num n => .num (n + 1)
  | _ => .nan

/-- The test `counters[i] > 0`: false for `NaN` and `undefined`. -/
def jsGtZero : JSVal → Bool
  | .num n => decide (0 < n)
  | _ => false

/-- Decimal string a JavaScript nonnegative integer prints as; `NaN` and
`undefined` never reach this point because `jsGtZero` guards the call. -/
def jsNumToChars : JSVal → List Char
  | .num n => Nat.toDigits 10 n
  | _ => []

/-- Loop `for (let i = level; i < counters.length; i++) counters[i] = 0;` of
`generateHierarchicalNumbering` in `send_topic.js`: zero every index at or
beyond `level`. -/
def resetFrom : List JSVal → Nat → List JSVal
  | [], _ => []
  | _ :: rest, 0 => JSVal.num 0 :: resetFrom rest 0
  | v :: rest, l + 1 => v :: resetFrom rest l

/-- Loop `let numberStr = ''; for (let i = 0; i < level; i++) if (counters[i] >
0) numberStr += (numberStr ? '.' : '') + counters[i];`. -/
def numberStr (counters : List JSVal) (level : Nat) : List Char :=
  (List.range level).foldl
    (fun acc i =>
      if jsGtZero (jsGet counters i) then
        acc ++ (if acc.isEmpty then [] else ['.']) ++ jsNumToChars (jsGet counters i)
      else acc)
    []

namespace SendTopic

/-- Body of the `forEach` of `generateHierarchicalNumbering` in
`send_topic.js`: on a line matching `/^(#+)\s*(.+)$/`, reset the counters at
indices `≥ level`, increment `counters[level - 1]`, and push the number
string; other lines are skipped. -/
def stepNumbering (st : List JSVal × List (List Char)) (line : List Char) :
    List JSVal × List (List Char) :=
  match matchHeading line with
  | none => st
  | some (level, _) =>
    let c1 := resetFrom st.1 level
    let c2 := jsSet c1 (level - 1) (jsIncr (jsGet c1 (level - 1)))
    (c2, st.2 ++ [numberStr c2 level])

/-- Embedding of `generateHierarchicalNumbering(outlineLines)` from
`send_topic.js`: walk the lines with six counters starting at zero. -/
def generateHierarchicalNumbering (outlineLines : List (List Char)) : List (List Char) :=
  (outlineLines.foldl stepNumbering (List.replicate 6 (JSVal.num 0), [])).2

end SendTopic

namespace HistoryOutline

/-- Body of the `forEach` of `HistoryOutlineManager.generateHierarchicalNumbering`
in `history_outline.js`.  Its reset loop is
`for (let i = level; i < counters.length; i++) { if (i > level) counters[i] = 0; }`,
which only zeroes indices strictly greater than `level` (the first iteration
is dead), i.e. `resetFrom counters (level + 1)`. -/
def stepNumbering (st : List JSVal × List (List Char)) (line : List Char) :
    List JSVal × List (List Char) :=
  match matchHeading line with
  | none => st
  | some (level, _) =>
    let c1 := resetFrom st.1 (level + 1)
    let c2 := jsSet c1 (level - 1) (jsIncr (jsGet c1 (level - 1)))
    (c2, st.2 ++ [numberStr c2 level])

/-- Embedding of the fallback `generateHierarchicalNumbering` method of
`HistoryOutlineManager` in `history_outline.js`. -/
def generateHierarchicalNumbering (outlineLines : List (List Char)) : List (List Char) :=
  (outlineLines.foldl stepNumbering (List.replicate 6 (JSVal.num 0), [])).2

end HistoryOutline

/-- Auxiliary fact: `resetFrom` zeroes exactly the in-range indices at or
beyond `level`. -/
theorem jsGet_resetFrom_ge (counters : List JSVal) :
    ∀ level i : Nat, level ≤ i → i < counters.length →
      jsGet (resetFrom counters level) i = JSVal.num 0 := by
  induction counters with
  | nil => intro level i _ h; simp at h
  | cons v rest ih =>
    intro level i hle hlt
    cases level with
    | zero =>
      cases i with
      | zero => rfl
      | succ j =>
        have := ih 0 j (Nat.zero_le _) (by simpa using Nat.lt_of_succ_lt_succ hlt)
        simpa [resetFrom, jsGet] using this
    | succ l =>
      cases i with
      | zero => omega
      | succ j =>
        have := ih l j (Nat.le_of_succ_le_succ hle) (by simpa using Nat.lt_of_succ_lt_succ hlt)
        simpa [resetFrom, jsGet] using this

/-- Auxiliary fact: `resetFrom` leaves the counters below `level` unchanged. -/
theorem jsGet_resetFrom_lt (counters : List JSVal) :
    ∀ level i : Nat, i < level →
      jsGet (resetFrom counters level) i = jsGet counters i := by
  induction counters with
  | nil => intro level i _; cases level <;> rfl
  | cons v rest ih =>
    intro level i hlt
    cases level with
    | zero => omega
    | succ l =>
      cases i with
      | zero => rfl
      | succ j =>
        have := ih l j (Nat.lt_of_succ_lt_succ hlt)
        simpa [resetFrom, jsGet] using this

/-- C2: `generateHierarchicalNumbering` walks the line list with six level
counters, zeroing every deeper counter whenever a shallower level increments
(`resetFrom` zeroes indices `≥ level` and touches nothing below), and on the
heading-level sequence `[1,1,2,1,2,2]` it yields the numbering strings
`1, 2, 2.1, 3, 3.1, 3.2`. -/
theorem generateHierarchicalNumbering_levels_112122 :
    SendTopic.generateHierarchicalNumbering
        ["# a".data, "# b".data, "## c".data, "# d".data, "## e".data, "## f".data]
      = ["1".data, "2".data, "2.1".data, "3".data, "3.1".data, "3.2".data]
    ∧ (∀ (counters : List JSVal) (level i : Nat), level ≤ i → i < counters.length →
        jsGet (resetFrom counters level) i = JSVal.num 0)
    ∧ (∀ (counters : List JSVal) (level i : Nat), i < level →
        jsGet (resetFrom counters level) i = jsGet counters i) := by
  refine ⟨by decide, ?_, ?_⟩
  · intro counters; exact jsGet_resetFrom_ge counters
  · intro counters; exact jsGet_resetFrom_lt counters

/-- C10: on the heading-level sequence `[1,2,1,2]` the `send_topic.js`
numbering yields `1, 1.1, 2, 2.1` while the `history_outline.js` fallback
yields `1, 1.1, 2, 2.2` — its reset loop skips index `level`, so the child
counter survives the shallower increment.  The two implementations disagree. -/
theorem generateHierarchicalNumbering_impls_diverge :
    SendTopic.generateHierarchicalNumbering
        ["# a".data, "## b".data, "# c".data, "## d".data]
      = ["1".data, "1.1".data, "2".data, "2.1".data]
    ∧ HistoryOutline.generateHierarchicalNumbering
        ["# a".data, "## b".data, "# c".data, "## d".data]
      = ["1".data, "1.1".data, "2".data, "2.2".data]
    ∧ SendTopic.generateHierarchicalNumbering
        ["# a".data, "## b".data, "# c".data, "## d".data]
      ≠ HistoryOutline.generateHierarchicalNumbering
        ["# a".data, "## b".data, "# c".data, "## d".data] := by
  refine ⟨by decide, by decide, by decide⟩

/-- Outcome of the `POST /api/session/current_pos` exchange as the client sees
it: the fetch can reject, the response can be non-2xx, `response.json()` can
throw, or a `{status}` body is obtained. -/
inductive SessionResponse where
  | networkError
  | httpNotOk
  | jsonParseError
  | jsonBody (status : String)
deriving DecidableEq

/-- State of the in-memory position `window.currentPos`; `none` models the
JavaScript value `undefined`. -/
def getCurrentPos (currentPos : Option Int) : Int :=
  match currentPos with
  | some p => p
  | none => 0

/-- Value `window.currentPos` is given at the top of `send_topic.js`
(`window.currentPos = -1;`), before `initializeGlobalPosManager` has heard
from the server. -/
def initialCurrentPos : Option Int := some (-1)

namespace SendTopic

/-- Embedding of `setCurrentPos(pos)` from `send_topic.js`: returns the new
`window.currentPos` together with the boolean result.  The in-memory value is
assigned only inside `if (response.ok)` and `if (data.status === 'success')`;
every other path leaves it alone and returns `false` (the `catch` swallows
rejections and json failures). -/
def setCurrentPos (currentPos : Int) (pos : Int) (resp : SessionResponse) :
    Int × Bool :=
  match resp with
  | .networkError => (currentPos, false)
  | .httpNotOk => (currentPos, false)
  | .jsonParseError => (currentPos, false)
  | .jsonBody status =>
    if status = "success" then (pos, true) else (currentPos, false)

end SendTopic

namespace HistoryOutline

/-- Embedding of `HistoryOutlineManager.setCurrentPos(pos)` from
`history_outline.js`: structurally the same as the `send_topic.js` version,
except that the failure paths reach `return false` by throwing
`'Failed to set current position'` into the method's own `catch`. -/
def setCurrentPos (currentPos : Int) (pos : Int) (resp : SessionResponse) :
    Int × Bool :=
  match resp with
  | .networkError => (currentPos, false)
  | .httpNotOk => (currentPos, false)
  | .jsonParseError => (currentPos, false)
  | .jsonBody status =>
    if status = "success" then (pos, true) else (currentPos, false)

end HistoryOutline

/-- C3: on any outcome other than a confirmed `{status:'success'}` body, both
`setCurrentPos` implementations return `false` and leave the in-memory
position untouched; on a confirmed success both store `pos` and return
`true`. -/
theorem setCurrentPos_updates_only_on_success (cur pos : Int) (resp : SessionResponse) :
    (resp ≠ SessionResponse.jsonBody "success" →
      SendTopic.setCurrentPos cur pos resp = (cur, false)
      ∧ HistoryOutline.setCurrentPos cur pos resp = (cur, false))
    ∧ SendTopic.setCurrentPos cur pos (SessionResponse.jsonBody "success") = (pos, true)
    ∧ HistoryOutline.setCurrentPos cur pos (SessionResponse.jsonBody "success") = (pos, true) := by
  refine ⟨?_, by simp [SendTopic.setCurrentPos], by simp [HistoryOutline.setCurrentPos]⟩
  intro hne
  cases resp with
  | networkError => exact ⟨rfl, rfl⟩
  | httpNotOk => exact ⟨rfl, rfl⟩
  | jsonParseError => exact ⟨rfl, rfl⟩
  | jsonBody status =>
    have hs : ¬ status = "success" := fun h => hne (by simp [h])
    simp [SendTopic.setCurrentPos, HistoryOutline.setCurrentPos, hs]

/-- Witness for C3 at a concrete input: from position `3`, a failed
`setCurrentPos(5)` leaves the position at `3` and returns `false`. -/
theorem setCurrentPos_updates_only_on_success_witness :
    SendTopic.setCurrentPos 3 5 SessionResponse.networkError = (3, false)
    ∧ HistoryOutline.setCurrentPos 3 5 SessionResponse.networkError = (3, false) :=
  (setCurrentPos_updates_only_on_success 3 5 SessionResponse.networkError).1 (by decide)

/-- C4 counterexample: before any successful `/api/session/current_pos` fetch,
`window.currentPos` holds its initial value `-1` (not `undefined`), so
`getCurrentPos()` returns `-1`, not `0`. -/
theorem getCurrentPos_uninitialized_not_zero :
    getCurrentPos initialCurrentPos = -1 ∧ getCurrentPos initialCurrentPos ≠ 0 := by
  exact ⟨rfl, by decide⟩

/-- C4 (amended): `getCurrentPos()` returns the in-memory position and falls
back to `0` only when `window.currentPos` is `undefined`; since
`send_topic.js` initializes `window.currentPos` to `-1` at load, the value
before any successful server fetch is `-1`. -/
theorem getCurrentPos_defaults :
    getCurrentPos none = 0
    ∧ (∀ p : Int, getCurrentPos (some p) = p)
    ∧ getCurrentPos initialCurrentPos = -1 :=
  ⟨rfl, fun _ => rfl, rfl⟩

/-- Loop body of `hasChildrenItems` in `send_topic.js`: scan forward through
the lines after the current one; a matching line deeper than `currentLevel`
returns `true`, a matching line at or above it breaks out with `false`, and
non-matching lines are skipped. -/
def hasChildrenScan : List (List Char) → Nat → Bool
  | [], _ => false
  | l :: rest, currentLevel =>
    match matchHeading l with
    | some (level, _) => if currentLevel < level then true else false
    | none => hasChildrenScan rest currentLevel

/-- Embedding of `hasChildrenItems(outlineLines, currentIndex, currentLevel)`
from `send_topic.js`: the scan starts at `currentIndex + 1`. -/
def hasChildrenItems (outlineLines : List (List Char)) (currentIndex currentLevel : Nat) :
    Bool :=
  hasChildrenScan (outlineLines.drop (currentIndex + 1)) currentLevel

/-- Characterization of the scan: it answers `true` exactly when some heading
line deeper than `lvl` occurs with no heading line at level `≤ lvl` before
it. -/
theorem hasChildrenScan_iff (lvl : Nat) :
    ∀ ls : List (List Char),
      hasChildrenScan ls lvl = true ↔
        ∃ pre l post,
          ls = pre ++ l :: post
          ∧ (∃ lv t, matchHeading l = some (lv, t) ∧ lvl < lv)
          ∧ ∀ l2 ∈ pre, ∀ lv2 t2, matchHeading l2 = some (lv2, t2) → lvl < lv2 := by
  intro ls
  induction ls with
  | nil =>
    simp [hasChildrenScan]
  | cons l0 rest ih =>
    cases h : matchHeading l0 with
    | some p =>
      obtain ⟨lv, t⟩ := p
      by_cases hlt : lvl < lv
      · constructor
        · intro _
          exact ⟨[], l0, rest, rfl, ⟨lv, t, h, hlt⟩, by simp⟩
        · intro _
          simp [hasChildrenScan, h, hlt]
      · constructor
        · intro hscan
          rw [hasChildrenScan, h] at hscan
          simp [hlt] at hscan
        · rintro ⟨pre, l, post, heq, ⟨lv2, t2, hm, hlv2⟩, hpre⟩
          exfalso
          cases pre with
          | nil =>
            simp only [List.nil_append, List.cons.injEq] at heq
            obtain ⟨rfl, rfl⟩ := heq
            rw [h] at hm
            simp only [Option.some.injEq, Prod.mk.injEq] at hm
            exact hlt (hm.1 ▸ hlv2)
          | cons p0 pre2 =>
            simp only [List.cons_append, List.cons.injEq] at heq
            obtain ⟨rfl, _⟩ := heq
            exact hlt (hpre l0 (by simp) lv t h)
    | none =>
      have hstep : hasChildrenScan (l0 :: rest) lvl = hasChildrenScan rest lvl := by
        rw [hasChildrenScan, h]
      rw [hstep, ih]
      constructor
      · rintro ⟨pre, l, post, heq, hex, hpre⟩
        refine ⟨l0 :: pre, l, post, by simp [heq], hex, ?_⟩
        intro l2 hl2 lv2 t2 hm2
        rcases List.mem_cons.mp hl2 with rfl | hl2x
        · rw [h] at hm2; exact absurd hm2 (by simp)
        · exact hpre l2 hl2x lv2 t2 hm2
      · rintro ⟨pre, l, post, heq, hex, hpre⟩
        cases pre with
        | nil =>
          simp only [List.nil_append, List.cons.injEq] at heq
          obtain ⟨rfl, rfl⟩ := heq
          obtain ⟨lv2, t2, hm2, _⟩ := hex
          rw [h] at hm2
          exact absurd hm2 (by simp)
        | cons p0 pre2 =>
          simp only [List.cons_append, List.cons.injEq] at heq
          obtain ⟨rfl, rfl⟩ := heq
          exact ⟨pre2, l, post, rfl, hex,
            fun l2 hl2 lv2 t2 hm2 => hpre l2 (List.mem_cons_of_mem _ hl2) lv2 t2 hm2⟩

/-- C7: `hasChildrenItems(outlineLines, currentIndex, currentLevel)` is `true`
iff, scanning forward from `currentIndex + 1`, some line matching the heading
regex with level strictly greater than `currentLevel` occurs before any
matching line with level at or below `currentLevel`. -/
theorem hasChildrenItems_iff (outlineLines : List (List Char))
    (currentIndex currentLevel : Nat) :
    hasChildrenItems outlineLines currentIndex currentLevel = true ↔
      ∃ pre l post,
        outlineLines.drop (currentIndex + 1) = pre ++ l :: post
        ∧ (∃ lv t, matchHeading l = some (lv, t) ∧ currentLevel < lv)
        ∧ ∀ l2 ∈ pre, ∀ lv2 t2, matchHeading l2 = some (lv2, t2) → currentLevel < lv2 :=
  hasChildrenScan_iff currentLevel (outlineLines.drop (currentIndex + 1))

/-- Embedding of the DOM insertion of `createCollapsibleChapter(chapterData)`
in `generate_article.js`.  The container is the ordered list of the indices of
the existing `.chapter-item` nodes (each node's id is `chapter-<index>`); the
loop finds the first existing chapter whose index exceeds the new chapter's
index and inserts before it, appending when none exists. -/
def createCollapsibleChapter (container : List Nat) (index : Nat) : List Nat :=
  match container with
  | [] => [index]
  | c :: rest =>
    if index < c then index :: c :: rest
    else c :: createCollapsibleChapter rest index

/-- Inserting a chapter produces a permutation of consing it. -/
theorem createCollapsibleChapter_perm (index : Nat) :
    ∀ container : List Nat,
      (createCollapsibleChapter container index).Perm (index :: container) := by
  intro container
  induction container with
  | nil => simp [createCollapsibleChapter]
  | cons c rest ih =>
    by_cases h : index < c
    · simp [createCollapsibleChapter, h]
    · rw [createCollapsibleChapter, if_neg h]
      exact (ih.cons c).trans (List.Perm.swap index c rest)

/-- Inserting a fresh chapter index into a strictly sorted container keeps it
strictly sorted. -/
theorem createCollapsibleChapter_sorted (index : Nat) :
    ∀ container : List Nat, List.Sorted (· < ·) container → index ∉ container →
      List.Sorted (· < ·) (createCollapsibleChapter container index) := by
  intro container
  induction container with
  | nil => intro _ _; simp [createCollapsibleChapter]
  | cons c rest ih =>
    intro hsorted hnotmem
    rw [List.sorted_cons] at hsorted
    obtain ⟨hc, hrest⟩ := hsorted
    by_cases h : index < c
    · rw [createCollapsibleChapter, if_pos h, List.sorted_cons]
      exact ⟨fun b hb => by
        rcases List.mem_cons.mp hb with rfl | hb2
        · exact h
        · exact h.trans (hc b hb2), List.sorted_cons.mpr ⟨hc, hrest⟩⟩
    · have hne : index ≠ c := fun hh => hnotmem (hh ▸ List.mem_cons_self c rest)
      have hcx : c < index := lt_of_le_of_ne (Nat.le_of_not_lt h) (Ne.symm hne)
      rw [createCollapsibleChapter, if_neg h, List.sorted_cons]
      refine ⟨?_, ih hrest (fun hm => hnotmem (List.mem_cons_of_mem c hm))⟩
      intro b hb
      have hbmem : b ∈ index :: rest :=
        (createCollapsibleChapter_perm index rest).mem_iff.mp hb
      rcases List.mem_cons.mp hbmem with rfl | hb2
      · exact hcx
      · exact hc b hb2

/-- Folding insertions keeps the container strictly sorted, provided the
incoming indices are fresh and pairwise distinct. -/
theorem foldl_createCollapsibleChapter_sorted :
    ∀ (ns acc : List Nat), List.Sorted (· < ·) acc → ns.Nodup →
      (∀ x ∈ ns, x ∉ acc) →
      List.Sorted (· < ·) (ns.foldl createCollapsibleChapter acc) := by
  intro ns
  induction ns with
  | nil => intro acc h _ _; simpa using h
  | cons x rest ih =>
    intro acc hacc hnodup hfresh
    rw [List.foldl_cons]
    have hxacc : x ∉ acc := hfresh x (List.mem_cons_self x rest)
    refine ih (createCollapsibleChapter acc x)
      (createCollapsibleChapter_sorted x acc hacc hxacc)
      (List.Nodup.of_cons hnodup) ?_
    intro y hy hymem
    have : y ∈ x :: acc := (createCollapsibleChapter_perm x acc).mem_iff.mp hymem
    rcases List.mem_cons.mp this with rfl | hy2
    · exact (List.nodup_cons.mp hnodup).1 hy
    · exact hfresh y (List.mem_cons_of_mem x hy) hy2

/-- Folding insertions from the empty container yields a permutation of the
arrival sequence. -/
theorem foldl_createCollapsibleChapter_perm :
    ∀ (ns acc : List Nat), (ns.foldl createCollapsibleChapter acc).Perm (acc ++ ns) := by
  intro ns
  induction ns with
  | nil => intro acc; simp
  | cons x rest ih =>
    intro acc
    rw [List.foldl_cons]
    refine (ih (createCollapsibleChapter acc x)).trans ?_
    have h1 : (createCollapsibleChapter acc x ++ rest).Perm ((x :: acc) ++ rest) :=
      (createCollapsibleChapter_perm x acc).append_right rest
    refine h1.trans ?_
    exact List.perm_middle.symm

/-- C5: streaming chapters with pairwise-distinct indices in any arrival
order, `createCollapsibleChapter` keeps the container's chapter nodes in
strictly ascending index order after every insertion (every prefix of the
arrival sequence), and the final container holds exactly the streamed
indices. -/
theorem createCollapsibleChapter_keeps_ascending (ns pre suf : List Nat)
    (hsplit : ns = pre ++ suf) (hnodup : ns.Nodup) :
    List.Sorted (· < ·) (pre.foldl createCollapsibleChapter [])
    ∧ (ns.foldl createCollapsibleChapter []).Perm ns := by
  constructor
  · have hpre : pre.Nodup := (hsplit ▸ hnodup).of_append_left
    exact foldl_createCollapsibleChapter_sorted pre [] (by simp) hpre (by simp)
  · simpa using foldl_createCollapsibleChapter_perm ns []

/-- Witness for C5: the arrival order `[2, 0, 1]` ends sorted as `[0, 1, 2]`. -/
theorem createCollapsibleChapter_keeps_ascending_witness :
    List.Sorted (· < ·) ([2, 0, 1].foldl createCollapsibleChapter [])
    ∧ ([2, 0, 1].foldl createCollapsibleChapter []).Perm [2, 0, 1]
    ∧ [2, 0, 1].foldl createCollapsibleChapter [] = [0, 1, 2] := by
  have h := createCollapsibleChapter_keeps_ascending [2, 0, 1] [2, 0, 1] []
    (by simp) (by decide)
  exact ⟨h.1, h.2, by decide⟩

/-- Parsed payload of a `CHAPTER_DATA:` line; only the chapter index takes
part in the DOM-insertion and counting logic that the verified properties
concern. -/
structure ChapterData where
  index : Nat
deriving DecidableEq

/-- Parsed payload of a `CHAPTER_ERROR:` line. -/
structure ChapterErrorData where
  index : Nat
deriving DecidableEq

/-- A trimmed, non-empty streamed line as `handleStreamLine` classifies it by
prefix.  The `Option` argument models `JSON.parse`: `none` is a line whose
payload is malformed and makes the parse throw. -/
inductive StreamLine where
  | chapterData (parsed : Option ChapterData)
  | chapterError (parsed : Option ChapterErrorData)
  | articleComplete
  | other
deriving DecidableEq

/-- Observable client state during a streaming run: the ordered
`.chapter-item` indices in the article container, the completed-chapters
counter, the rendered `chapter-error-` blocks, and the completion flag. -/
structure GenState where
  container : List Nat
  completedChaptersCount : Nat
  errorBlocks : List Nat
  done : Bool
deriving DecidableEq

/-- Result of one `handleStreamLine` call: either a normal return or a thrown
exception, each carrying the state after the call's side effects. -/
inductive LineResult where
  | ok (st : GenState)
  | thrown (st : GenState)
deriving DecidableEq

/-- Embedding of `handleStreamLine(line)` from `generate_article.js`.
A parsed `CHAPTER_DATA` renders via `createCollapsibleChapter` and increments
the counter; a malformed one is caught, logged and dropped.  A parsed
`CHAPTER_ERROR` renders an error block and then throws
`'Network error occurred, generation stopped'`, which the inner `catch`
re-throws; a malformed one is swallowed by that same `catch`.
`ARTICLE_COMPLETE` marks the run done; other lines do nothing. -/
def handleStreamLine (st : GenState) (line : StreamLine) : LineResult :=
  match line with
  | .chapterData (some c) =>
    .ok { st with
      container := createCollapsibleChapter st.container c.index,
      completedChaptersCount := st.completedChaptersCount + 1 }
  | .chapterData none => .ok st
  | .chapterError (some e) =>
    .thrown { st with errorBlocks := st.errorBlocks ++ [e.index] }
  | .chapterError none => .ok st
  | .articleComplete => .ok { st with done := true }
  | .other => .ok st

/-- Embedding of the line loop of `generateArticleStream`: lines are fed to
`handleStreamLine` in order and a thrown exception propagates out of the read
loop into the surrounding `catch`, ending the run with the state reached so
far. -/
def runStream : GenState → List StreamLine → GenState
  | st, [] => st
  | st, l :: rest =>
    match handleStreamLine st l with
    | .ok st2 => runStream st2 rest
    | .thrown st2 => st2

/-- C1: a `CHAPTER_ERROR` line with a parseable payload makes
`handleStreamLine` throw (after rendering the error block), and the run
therefore ends at that line: every line after it — in particular every
buffered `CHAPTER_DATA` line — is ignored, so the final state (container
included) equals the state of the run truncated at the error line. -/
theorem chapterError_aborts_stream (st : GenState) (pre post : List StreamLine)
    (e : ChapterErrorData) :
    handleStreamLine st (StreamLine.chapterError (some e))
      = LineResult.thrown { st with errorBlocks := st.errorBlocks ++ [e.index] }
    ∧ runStream st (pre ++ StreamLine.chapterError (some e) :: post)
      = runStream st (pre ++ [StreamLine.chapterError (some e)]) := by
  refine ⟨rfl, ?_⟩
  induction pre generalizing st with
  | nil => rfl
  | cons p pre2 ih =>
    rw [List.cons_append, List.cons_append, runStream, runStream]
    cases handleStreamLine st p with
    | ok st2 => exact ih st2
    | thrown st2 => rfl

/-- Embedding of one iteration of the read loop of `generateArticleStream`
(`generate_article.js`) and `continueGenerationFromChapter`: append the
decoded chunk to the buffer, split on newlines, keep the popped last segment
as the new buffer, and hand the complete lines to the line loop (recorded
here in arrival order). -/
def processChunk (st : List Char × List (List Char)) (chunk : List Char) :
    List Char × List (List Char) :=
  let buffer := st.1 ++ chunk
  let lines := buffer.splitOn '\n'
  (lines.getLastD [], st.2 ++ lines.dropLast)

theorem splitOn_char_ne_nil (c : Char) (s : List Char) : s.splitOn c ≠ [] := by
  simpa [List.splitOn] using List.splitOnP_ne_nil (· == c) s

theorem not_mem_of_mem_splitOn (c : Char) (s : List Char) :
    ∀ l ∈ s.splitOn c, c ∉ l := by
  simp only [List.splitOn]
  induction s with
  | nil => simp
  | cons a s ih =>
    intro l hl
    rw [List.splitOnP_cons] at hl
    by_cases h : a = c
    · simp only [h, beq_self_eq_true, if_pos] at hl
      rcases List.mem_cons.mp hl with rfl | hl2
      · simp
      · exact ih l hl2
    · simp only [beq_iff_eq, h, if_false] at hl
      cases hs : s.splitOnP (· == c) with
      | nil => exact absurd hs (List.splitOnP_ne_nil _ s)
      | cons m ms =>
        rw [hs] at hl
        rcases List.mem_cons.mp hl with rfl | hl2
        · intro hmem
          rcases List.mem_cons.mp hmem with rfl | hmem2
          · exact h rfl
          · exact ih m (hs ▸ List.mem_cons_self m ms) hmem2
        · exact ih l (hs ▸ List.mem_cons_of_mem m hl2)

theorem splitOn_append_not_mem (a b : List Char) (ha : '\n' ∉ a) :
    (a ++ b).splitOn '\n' = (b.splitOn '\n').modifyHead (a ++ ·) := by
  induction a with
  | nil =>
    cases h : b.splitOn '\n' with
    | nil => exact absurd h (splitOn_char_ne_nil _ b)
    | cons m ms => simp [h]
  | cons c a ih =>
    have hc : ¬ (c = '\n') := fun h => ha (h ▸ List.mem_cons_self c a)
    have ha2 : '\n' ∉ a := fun h => ha (List.mem_cons_of_mem c h)
    simp only [List.cons_append, List.splitOn, List.splitOnP_cons, beq_iff_eq, hc, if_false]
    rw [show (a ++ b).splitOnP (· == '\n') = (a ++ b).splitOn '\n' from rfl, ih ha2,
      List.modifyHead_modifyHead]
    rfl

theorem intercalate_cons_ne_nil (l : List Char) (ls : List (List Char)) (h : ls ≠ []) :
    ['\n'].intercalate (l :: ls) = l ++ '\n' :: ['\n'].intercalate ls := by
  cases ls with
  | nil => exact absurd rfl h
  | cons m ms => simp [List.intercalate]

theorem dropLast_append_getLastD (l : List (List Char)) (h : l ≠ []) :
    l.dropLast ++ [l.getLastD []] = l := by
  induction l with
  | nil => exact absurd rfl h
  | cons a l ih =>
    cases l with
    | nil => rfl
    | cons b l2 => simpa using ih (by simp)

theorem getLastD_mem (l : List (List Char)) (h : l ≠ []) : l.getLastD [] ∈ l := by
  induction l with
  | nil => exact absurd rfl h
  | cons a l ih =>
    cases l with
    | nil => simp [List.getLastD]
    | cons b l2 =>
      have h2 := ih (by simp)
      exact List.mem_cons_of_mem a h2

theorem splitOn_intercalate_append (b chunk : List Char) :
    ∀ D : List (List Char), (∀ l ∈ D, '\n' ∉ l) → '\n' ∉ b →
      (['\n'].intercalate (D ++ [b]) ++ chunk).splitOn '\n'
        = D ++ (chunk.splitOn '\n').modifyHead (b ++ ·) := by
  intro D
  induction D with
  | nil =>
    intro _ hb
    simpa [List.intercalate] using splitOn_append_not_mem b chunk hb
  | cons l D ih =>
    intro hD hb
    have hl : '\n' ∉ l := hD l (List.mem_cons_self l D)
    rw [List.cons_append, intercalate_cons_ne_nil l (D ++ [b]) (by simp),
      List.append_assoc, List.cons_append]
    have hnotp : ∀ x ∈ l, ¬ ((x == '\n') = true) := by
      intro x hx hbeq
      exact hl ((beq_iff_eq.mp hbeq) ▸ hx)
    have hfirst : ((l ++ '\n' :: (['\n'].intercalate (D ++ [b]) ++ chunk)).splitOn '\n')
        = l :: ((['\n'].intercalate (D ++ [b]) ++ chunk).splitOn '\n') := by
      simpa [List.splitOn] using
        List.splitOnP_first (· == '\n') l hnotp '\n' (by simp)
          (['\n'].intercalate (D ++ [b]) ++ chunk)
    rw [hfirst, ih (fun m hm => hD m (List.mem_cons_of_mem l hm)) hb, List.cons_append]

theorem getLastD_append_ne (A B : List (List Char)) (h : B ≠ []) :
    (A ++ B).getLastD [] = B.getLastD [] := by
  rw [List.getLastD_eq_getLast?, List.getLastD_eq_getLast?,
    List.getLast?_append_of_ne_nil _ h]

/-- One chunk moves the loop state from the split of the bytes decoded so far
to the split of those bytes extended by the chunk. -/
theorem processChunk_splitOn (d chunk : List Char) :
    processChunk ((d.splitOn '\n').getLastD [], (d.splitOn '\n').dropLast) chunk
      = (((d ++ chunk).splitOn '\n').getLastD [],
         ((d ++ chunk).splitOn '\n').dropLast) := by
  have hne : d.splitOn '\n' ≠ [] := splitOn_char_ne_nil '\n' d
  have hDnomem : ∀ l ∈ (d.splitOn '\n').dropLast, '\n' ∉ l := fun l hl =>
    not_mem_of_mem_splitOn '\n' d l (List.dropLast_subset _ hl)
  have hbno : '\n' ∉ (d.splitOn '\n').getLastD [] :=
    not_mem_of_mem_splitOn '\n' d _ (getLastD_mem _ hne)
  have hmain : (d ++ chunk).splitOn '\n'
      = (d.splitOn '\n').dropLast
        ++ (chunk.splitOn '\n').modifyHead ((d.splitOn '\n').getLastD [] ++ ·) :=
    calc (d ++ chunk).splitOn '\n'
        = (['\n'].intercalate ((d.splitOn '\n').dropLast
            ++ [(d.splitOn '\n').getLastD []]) ++ chunk).splitOn '\n' := by
          rw [dropLast_append_getLastD _ hne, List.intercalate_splitOn]
      _ = (d.splitOn '\n').dropLast
            ++ (chunk.splitOn '\n').modifyHead ((d.splitOn '\n').getLastD [] ++ ·) :=
          splitOn_intercalate_append _ chunk _ hDnomem hbno
  have hlinesne : (chunk.splitOn '\n').modifyHead ((d.splitOn '\n').getLastD [] ++ ·) ≠ [] := by
    cases hc : chunk.splitOn '\n' with
    | nil => exact absurd hc (splitOn_char_ne_nil '\n' chunk)
    | cons m ms => simp
  show ((((d.splitOn '\n').getLastD [] ++ chunk).splitOn '\n').getLastD [],
      (d.splitOn '\n').dropLast
        ++ (((d.splitOn '\n').getLastD [] ++ chunk).splitOn '\n').dropLast)
    = (((d ++ chunk).splitOn '\n').getLastD [], ((d ++ chunk).splitOn '\n').dropLast)
  rw [splitOn_append_not_mem _ chunk hbno, hmain,
    List.dropLast_append_of_ne_nil _ hlinesne,
    getLastD_append_ne _ _ hlinesne]

/-- Folding the read loop over any chunk sequence lands on the split of the
concatenation of everything decoded. -/
theorem foldl_processChunk_splitOn (chunks : List (List Char)) :
    ∀ d : List Char,
      chunks.foldl processChunk ((d.splitOn '\n').getLastD [], (d.splitOn '\n').dropLast)
        = (((d ++ chunks.flatten).splitOn '\n').getLastD [],
           ((d ++ chunks.flatten).splitOn '\n').dropLast) := by
  induction chunks with
  | nil => intro d; simp
  | cons c cs ih =>
    intro d
    rw [List.foldl_cons, processChunk_splitOn d c, ih (d ++ c)]
    simp [List.append_assoc]

/-- C8: after any sequence of decoded chunks, the loop buffer holds exactly
the text after the last newline of everything decoded so far (in particular
it contains no newline, so no complete line ever waits in it and no partial
line is handed to `handleStreamLine` before its newline or the end of the
stream), the processed lines are exactly the complete lines, and joining the
processed lines and the buffer with newlines restores the decoded bytes. -/
theorem streamBuffer_holds_trailing_text (chunks : List (List Char)) :
    (chunks.foldl processChunk ([], [])).1 = ((chunks.flatten).splitOn '\n').getLastD []
    ∧ (chunks.foldl processChunk ([], [])).2 = ((chunks.flatten).splitOn '\n').dropLast
    ∧ '\n' ∉ (chunks.foldl processChunk ([], [])).1
    ∧ ['\n'].intercalate ((chunks.foldl processChunk ([], [])).2
        ++ [(chunks.foldl processChunk ([], [])).1]) = chunks.flatten := by
  have h0 : (([], []) : List Char × List (List Char))
      = ((([] : List Char).splitOn '\n').getLastD [],
         (([] : List Char).splitOn '\n').dropLast) := rfl
  have hfold := foldl_processChunk_splitOn chunks []
  rw [List.nil_append] at hfold
  rw [h0, hfold]
  have hne : (chunks.flatten).splitOn '\n' ≠ [] := splitOn_char_ne_nil '\n' _
  refine ⟨rfl, rfl, not_mem_of_mem_splitOn '\n' _ _ (getLastD_mem _ hne), ?_⟩
  rw [dropLast_append_getLastD _ hne, List.intercalate_splitOn]

/-- Embedding of `line.trim().startsWith('#')`, the filter both
`retryChapterGeneration` and `continueGenerationFromChapter` use to count the
outline's chapter lines. -/
def startsWithHash (l : List Char) : Bool :=
  match l with
  | c :: _ => c = '#'
  | [] => false

/-- Number of outline heading lines:
`outlineData.split('\n').filter(line => line.trim().startsWith('#')).length`. -/
def countHeadingLines (outline : List Char) : Nat :=
  ((outline.splitOn '\n').filter (fun l => startsWithHash (jsTrim l))).length

/-- Parsed `response.json()` of the single-chapter regeneration request, as
`retryChapterGeneration` inspects it: HTTP/network failure, a body that fits
none of the checked shapes, `result.error` set, or a successful result with a
chapter title and content (`result.content` is falsy when empty). -/
inductive SingleChapterResult where
  | httpError
  | invalidResponse
  | resultError (msg : List Char)
  | success (chapterTitle : Option (List Char)) (content : List Char)

/-- Next step `retryChapterGeneration` takes after handling the response. -/
inductive RetryNext where
  | continueFrom (startChapterIndex : Nat)
  | complete
  | failed
deriving DecidableEq

/-- Embedding of `continueGenerationFromChapter(startChapterIndex)` from the
article-display script: it recounts the chapter lines, resets the
completed-chapters counter to `startChapterIndex`, finishes immediately
(`displayArticleComplete`) when no chapters remain, and otherwise posts a
`continue_generation` request and feeds the fresh stream's lines through
`handleStreamLine`. -/
def continueGenerationFromChapter (startChapterIndex : Nat) (outline : List Char)
    (st : GenState) (streamedLines : List StreamLine) : GenState :=
  let chapters := (outline.splitOn '\n').filter (fun l => startsWithHash (jsTrim l))
  let st1 := { st with completedChaptersCount := startChapterIndex }
  if chapters.length ≤ startChapterIndex then { st1 with done := true }
  else runStream st1 streamedLines

/-- Embedding of the response handling of `retryChapterGeneration(chapterIndex)`
from `generate_article.js`: on `result && !result.error && result.content` the
chapter is rendered through `createCollapsibleChapter` and the function either
schedules `continueGenerationFromChapter(chapterIndex + 1)` (when heading
lines remain) or finalizes with `displayArticleComplete`; every failure shape
re-enables the retry button and changes nothing. -/
def retryChapterGeneration (chapterIndex : Nat) (outline : List Char)
    (container : List Nat) (resp : SingleChapterResult) : List Nat × RetryNext :=
  match resp with
  | .httpError => (container, .failed)
  | .invalidResponse => (container, .failed)
  | .resultError _ => (container, .failed)
  | .success _ content =>
    if content.isEmpty then (container, .failed)
    else
      let container2 := createCollapsibleChapter container chapterIndex
      let chapters := (outline.splitOn '\n').filter (fun l => startsWithHash (jsTrim l))
      if chapterIndex + 1 < chapters.length then
        (container2, .continueFrom (chapterIndex + 1))
      else
        (container2, .complete)

/-- C9: on a successful single-chapter response the retried chapter is
rendered into the container, and then: when `chapterIndex + 1` is below the
number of outline heading lines the next step is
`continueGenerationFromChapter (chapterIndex + 1)` — which then actually
opens a fresh stream (it does not take its early-complete path); otherwise
the run is finalized as complete. -/
theorem retryChapterGeneration_success (chapterIndex : Nat) (outline : List Char)
    (container : List Nat) (title : Option (List Char)) (content : List Char)
    (hc : content ≠ []) :
    (retryChapterGeneration chapterIndex outline container
        (SingleChapterResult.success title content)).1
      = createCollapsibleChapter container chapterIndex
    ∧ (chapterIndex + 1 < countHeadingLines outline →
        (retryChapterGeneration chapterIndex outline container
            (SingleChapterResult.success title content)).2
          = RetryNext.continueFrom (chapterIndex + 1)
        ∧ ∀ (st : GenState) (streamedLines : List StreamLine),
            continueGenerationFromChapter (chapterIndex + 1) outline st streamedLines
              = runStream { st with completedChaptersCount := chapterIndex + 1 }
                  streamedLines)
    ∧ (countHeadingLines outline ≤ chapterIndex + 1 →
        (retryChapterGeneration chapterIndex outline container
            (SingleChapterResult.success title content)).2
          = RetryNext.complete) := by
  have hemp : content.isEmpty = false := by
    cases content with
    | nil => exact absurd rfl hc
    | cons c rest => rfl
  refine ⟨?_, ?_, ?_⟩
  · by_cases h : chapterIndex + 1 <
        ((outline.splitOn '\n').filter (fun l => startsWithHash (jsTrim l))).length
    · simp [retryChapterGeneration, hemp, h]
    · simp [retryChapterGeneration, hemp, h]
  · intro h
    constructor
    · simp [retryChapterGeneration, hemp, show chapterIndex + 1 <
        ((outline.splitOn '\n').filter (fun l => startsWithHash (jsTrim l))).length from h]
    · intro st streamedLines
      have h2 : ¬ (((outline.splitOn '\n').filter
          (fun l => startsWithHash (jsTrim l))).length ≤ chapterIndex + 1) := by
        exact Nat.not_le.mpr h
      simp only [continueGenerationFromChapter, if_neg h2]
  · intro h
    have h2 : ¬ (chapterIndex + 1 <
        ((outline.splitOn '\n').filter (fun l => startsWithHash (jsTrim l))).length) :=
      Nat.not_lt.mpr h
    simp [retryChapterGeneration, hemp, h2]

/-- Witness for C9: with outline `# a\n# b` (two heading lines) a successful
retry of chapter 0 renders chapter 0 and continues from chapter 1. -/
theorem retryChapterGeneration_success_witness :
    (retryChapterGeneration 0 "# a\n# b".data []
        (SingleChapterResult.success none "x".data)).1
      = createCollapsibleChapter [] 0
    ∧ (retryChapterGeneration 0 "# a\n# b".data []
        (SingleChapterResult.success none "x".data)).2
      = RetryNext.continueFrom 1 := by
  have h := retryChapterGeneration_success 0 "# a\n# b".data [] none "x".data (by decide)
  exact ⟨h.1, (h.2.1 (by decide)).1⟩

/-- Heading extraction of `displayOutlineInSidebar(outlineContent)` in
`send_topic.js`: split on newlines, keep lines passing `/^#+\s/`, and take
the `(level, match[2])` pair of each line the heading regex matches.  These
are the pairs the claim's re-parsing step yields; the DOM blocks the function
then creates interpolate `match[2]` into `innerHTML` (send_topic.js:649), so
the `textContent` they store is related to `match[2]` by
`InnerHTMLTextContent` below. -/
def displayOutlineInSidebar (outlineContent : List Char) : List (Nat × List Char) :=
  ((outlineContent.splitOn '\n').filter headingTest).filterMap matchHeading

/-- Serialization of `updateOutlineData` in `send_topic.js`: each block
becomes `'#'.repeat(level) + ' ' + text` and the lines are joined with
newlines. -/
def updateOutlineData (ns : List (Nat × List Char)) : List Char :=
  ['\n'].intercalate (ns.map (fun n => List.replicate n.1 '#' ++ ' ' :: n.2))

/-- Raw text the Add/Edit dialog hands its callback: the `input[type=text]`
value — whose HTML value sanitization strips CR and LF — after `.trim()`,
accepted only when non-empty (`if (newText)`). -/
def dialogTextOK (t : List Char) : Prop :=
  t ≠ [] ∧ jsTrim t = t ∧ '\n' ∉ t ∧ '\r' ∉ t

/-- No-break space U+00A0, the decoding of `&nbsp;`; it is JS whitespace. -/
def nbspChar : Char := Char.ofNat 0xA0

/-- Characters an `innerHTML` assignment stores unchanged when they appear in
the text interpolated into
`<span class="block-content" title="${text}">${text}</span>`
(send_topic.js:649 and 916–926): everything except `&` (starts a character
reference), `<` (starts a tag), `"` (would end the interpolated `title`
attribute and corrupt the markup), CR (the HTML input-stream preprocessor
rewrites it to LF), and NUL (replaced by U+FFFD). -/
def plainHtmlChar (c : Char) : Bool :=
  !(c = '&' || c = '<' || c = '"' || c = '\r' || c = Char.ofNat 0)

/-- Decimal value of a digit string, most significant digit first. -/
def digitsVal (ds : List Char) : Nat :=
  ds.foldl (fun a c => a * 10 + (c.toNat - 48)) 0

/-- Code points whose decimal character reference `&#v;` decodes to the code
point itself under the HTML specification — none is in the numeric-reference
replacement table (NUL, CR, C1 controls, surrogates): LF, printable ASCII,
and NBSP. -/
def allowedCharRefCode (v : Nat) : Bool :=
  v = 10 || (32 ≤ v && v ≤ 126) || v = 160

/-- The character reference `&` followed by `r` decodes to `c` during HTML
parsing.  Only certainly-correct references are modeled: five named
references with their terminating semicolon (longest match cannot extend past
a semicolon) and decimal numeric references to the safe code points of
`allowedCharRefCode`. -/
inductive CharRefDecode : List Char → Char → Prop
  | nbsp : CharRefDecode ['n', 'b', 's', 'p', ';'] nbspChar
  | amp : CharRefDecode ['a', 'm', 'p', ';'] '&'
  | lt : CharRefDecode ['l', 't', ';'] '<'
  | gt : CharRefDecode ['g', 't', ';'] '>'
  | quot : CharRefDecode ['q', 'u', 'o', 't', ';'] '"'
  | numeric (ds : List Char) (v : Nat) (c : Char) :
      ds ≠ [] → (∀ d ∈ ds, d.isDigit = true) → digitsVal ds = v →
      allowedCharRefCode v = true → c.toNat = v →
      CharRefDecode ('#' :: (ds ++ [';'])) c

/-- `InnerHTMLTextContent raw stored` relates the text interpolated into the
block's `innerHTML` template to the `textContent` the `block-content` span
then holds: plain characters pass through, modeled character references
decode.  Raw strings containing markup or unmodeled references have no
derivation, so the relation under-approximates the browser — sound for
establishing reachability, and the round-trip theorem does not depend on its
extent. -/
inductive InnerHTMLTextContent : List Char → List Char → Prop
  | nil : InnerHTMLTextContent [] []
  | lit (c : Char) (raw stored : List Char) :
      plainHtmlChar c = true → InnerHTMLTextContent raw stored →
      InnerHTMLTextContent (c :: raw) (c :: stored)
  | ref (r : List Char) (c : Char) (raw stored : List Char) :
      CharRefDecode r c → InnerHTMLTextContent raw stored →
      InnerHTMLTextContent ('&' :: (r ++ raw)) (c :: stored)

/-- Outline node lists the editor can reach.  Load renders each matched
line's capture through the block `innerHTML` (send_topic.js:649), so the
stored texts are the HTML decodings of the regex captures.  Add interpolates
the trimmed dialog text into `innerHTML` the same way (send_topic.js:916–926).
Edit assigns `.textContent` directly (send_topic.js:710), storing the dialog
text verbatim.  Delete removes a block; Reorder (drag sorting) permutes
them. -/
inductive ReachableOutline : List (Nat × List Char) → Prop
  | load (s : List Char) (ns : List (Nat × List Char)) :
      List.Forall₂ (fun m n => m.1 = n.1 ∧ InnerHTMLTextContent m.2 n.2)
        (displayOutlineInSidebar s) ns →
      ReachableOutline ns
  | add (ns : List (Nat × List Char)) (raw t : List Char) (lvl : Nat) :
      ReachableOutline ns → dialogTextOK raw → InnerHTMLTextContent raw t →
      1 ≤ lvl → lvl ≤ 4 → ReachableOutline (ns ++ [(lvl, t)])
  | edit (pre : List (Nat × List Char)) (n : Nat × List Char)
      (post : List (Nat × List Char)) (t : List Char) (lvl : Nat) :
      ReachableOutline (pre ++ n :: post) → dialogTextOK t → 1 ≤ lvl → lvl ≤ 4 →
      ReachableOutline (pre ++ (lvl, t) :: post)
  | del (pre : List (Nat × List Char)) (n : Nat × List Char)
      (post : List (Nat × List Char)) :
      ReachableOutline (pre ++ n :: post) → ReachableOutline (pre ++ post)
  | reorder (ns ms : List (Nat × List Char)) :
      ReachableOutline ns → ns.Perm ms → ReachableOutline ms

theorem noLineTerm_cons {c : Char} {rest : List Char} (h : noLineTerm (c :: rest) = true) :
    isLineTerm c = false ∧ noLineTerm rest = true := by
  simp only [noLineTerm, List.all_cons, Bool.and_eq_true, Bool.not_eq_true'] at h
  exact ⟨h.1, by simpa [noLineTerm] using h.2⟩

theorem matchTail_none_of_noLineTerm :
    ∀ r : List Char, matchTail r = none → noLineTerm r = true → r = [] := by
  intro r
  induction r with
  | nil => intro _ _; rfl
  | cons c rest ih =>
    intro h hterm
    rw [matchTail] at h
    by_cases hw : isWhitespaceJS c
    · rw [if_pos hw] at h
      cases hm : matchTail rest with
      | some t2 => rw [hm] at h; exact absurd h (by simp)
      | none =>
        rw [hm, if_pos hterm] at h
        exact absurd h (by simp)
    · rw [if_neg hw, if_pos hterm] at h
      exact absurd h (by simp)

theorem matchTail_sound :
    ∀ r t : List Char, matchTail r = some t →
      t ≠ [] ∧ noLineTerm t = true ∧
      (∀ c rest, t = c :: rest → isWhitespaceJS c = true → rest = []) := by
  intro r
  induction r with
  | nil => intro t h; exact absurd h (by simp [matchTail])
  | cons c rest ih =>
    intro t h
    rw [matchTail] at h
    by_cases hw : isWhitespaceJS c
    · rw [if_pos hw] at h
      cases hm : matchTail rest with
      | some t2 =>
        rw [hm] at h
        injection h with h
        exact h ▸ ih t2 hm
      | none =>
        rw [hm] at h
        by_cases hn : noLineTerm (c :: rest)
        · rw [if_pos hn] at h
          injection h with h
          have hrest : rest = [] :=
            matchTail_none_of_noLineTerm rest hm (noLineTerm_cons hn).2
          subst hrest
          refine h ▸ ⟨by simp, hn, ?_⟩
          intro c2 rest2 he _
          exact (List.cons.injEq _ _ _ _ ▸ he).2.symm ▸ rfl
        · rw [if_neg hn] at h
          exact absurd h (by simp)
    · rw [if_neg hw] at h
      by_cases hn : noLineTerm (c :: rest)
      · rw [if_pos hn] at h
        injection h with h
        refine h ▸ ⟨by simp, hn, ?_⟩
        intro c2 rest2 he hw2
        have hc2 : c2 = c := ((List.cons.injEq _ _ _ _).mp he.symm).1
        exact absurd (hc2 ▸ hw2) hw
      · rw [if_neg hn] at h
        exact absurd h (by simp)

theorem tryHash_sound :
    ∀ (k : Nat) (s : List Char) (lv : Nat) (t : List Char),
      tryHash k s = some (lv, t) → 1 ≤ lv ∧ matchTail (s.drop lv) = some t := by
  intro k
  induction k with
  | zero => intro s lv t h; exact absurd h (by simp [tryHash])
  | succ k ih =>
    intro s lv t h
    rw [tryHash] at h
    cases hm : matchTail (s.drop (k + 1)) with
    | some t2 =>
      rw [hm] at h
      injection h with h
      obtain ⟨h1, h2⟩ := Prod.mk.injEq _ _ _ _ ▸ h
      exact ⟨h1 ▸ Nat.succ_le_succ (Nat.zero_le k), h1 ▸ h2 ▸ hm⟩
    | none =>
      rw [hm] at h
      exact ih s lv t h

theorem hashRun_serialized (t : List Char) :
    ∀ lv : Nat, hashRun (List.replicate lv '#' ++ ' ' :: t) = lv := by
  intro lv
  induction lv with
  | zero => rfl
  | succ k ih =>
    rw [List.replicate_succ, List.cons_append, hashRun, if_pos rfl, ih]

theorem drop_serialized (t : List Char) (lv : Nat) :
    (List.replicate lv '#' ++ ' ' :: t).drop lv = ' ' :: t := by
  have h := List.drop_left (List.replicate lv '#') (' ' :: t)
  rwa [List.length_replicate] at h

theorem matchTail_goodText (t : List Char) (ht : t ≠ [])
    (hterm : noLineTerm t = true)
    (hhead : ∀ c rest, t = c :: rest → isWhitespaceJS c = true → rest = []) :
    matchTail t = some t := by
  cases t with
  | nil => exact absurd rfl ht
  | cons c rest =>
    by_cases hw : isWhitespaceJS c
    · have hrest : rest = [] := hhead c rest rfl hw
      subst hrest
      rw [matchTail, if_pos hw]
      rw [show matchTail [] = none from rfl, if_pos hterm]
    · rw [matchTail, if_neg hw, if_pos hterm]

theorem matchHeading_serialized (t : List Char) (lv : Nat) (hlv : 1 ≤ lv)
    (ht : t ≠ []) (hterm : noLineTerm t = true)
    (hhead : ∀ c rest, t = c :: rest → isWhitespaceJS c = true → rest = []) :
    matchHeading (List.replicate lv '#' ++ ' ' :: t) = some (lv, t) := by
  have htail : matchTail (' ' :: t) = some t := by
    rw [matchTail, if_pos (by decide : isWhitespaceJS ' ' = true),
      matchTail_goodText t ht hterm hhead]
  cases lv with
  | zero => omega
  | succ k =>
    rw [matchHeading, hashRun_serialized, tryHash, drop_serialized, htail]

theorem headingTest_serialized (t : List Char) (lv : Nat) (hlv : 1 ≤ lv) :
    headingTest (List.replicate lv '#' ++ ' ' :: t) = true := by
  rw [headingTest, hashRun_serialized, drop_serialized]
  simp only [Bool.and_eq_true, decide_eq_true_eq]
  exact ⟨by omega, by decide⟩

theorem filterMap_eq_self_of {α : Type} (f : α → Option α) :
    ∀ l : List α, (∀ x ∈ l, f x = some x) → l.filterMap f = l := by
  intro l
  induction l with
  | nil => intro _; rfl
  | cons a l ih =>
    intro h
    rw [List.filterMap_cons, h a (List.mem_cons_self a l),
      ih (fun x hx => h x (List.mem_cons_of_mem a hx))]

theorem charRefDecode_ne_cr {r : List Char} {c : Char} (h : CharRefDecode r c) :
    ¬ (c = '\r') := by
  cases h with
  | nbsp => decide
  | amp => decide
  | lt => decide
  | gt => decide
  | quot => decide
  | numeric ds v cc hne hdig hval hallow hc =>
    intro he
    rw [he] at hc
    have h13 : ('\r').toNat = 13 := by decide
    rw [h13] at hc
    rw [← hc] at hallow
    exact absurd hallow (by decide)

theorem innerHTML_not_cr {raw t : List Char} (h : InnerHTMLTextContent raw t) :
    '\r' ∉ t := by
  induction h with
  | nil => simp
  | lit c raw stored hp _ ih =>
    intro hm
    rcases List.mem_cons.mp hm with he | hm2
    · rw [← he] at hp
      exact absurd hp (by decide)
    · exact ih hm2
  | ref r c raw stored hr _ ih =>
    intro hm
    rcases List.mem_cons.mp hm with he | hm2
    · exact charRefDecode_ne_cr hr he.symm
    · exact ih hm2

theorem innerHTML_ne_nil {raw t : List Char} (h : InnerHTMLTextContent raw t)
    (hraw : raw ≠ []) : t ≠ [] := by
  cases h with
  | nil => exact absurd rfl hraw
  | lit c raw stored _ _ => simp
  | ref r c raw stored _ _ => simp

theorem innerHTML_self (s : List Char) (h : ∀ c ∈ s, plainHtmlChar c = true) :
    InnerHTMLTextContent s s := by
  induction s with
  | nil => exact InnerHTMLTextContent.nil
  | cons c rest ih =>
    exact InnerHTMLTextContent.lit c rest rest (h c (List.mem_cons_self c rest))
      (ih (fun d hd => h d (List.mem_cons_of_mem c hd)))

theorem forall₂_right_mem {α β : Type} {R : α → β → Prop} :
    ∀ {l1 : List α} {l2 : List β}, List.Forall₂ R l1 l2 →
      ∀ b ∈ l2, ∃ a ∈ l1, R a b := by
  intro l1 l2 h
  induction h with
  | nil => simp
  | cons hr _ ih =>
    intro b hb
    rcases List.mem_cons.mp hb with rfl | hb2
    · exact ⟨_, List.mem_cons_self _ _, hr⟩
    · obtain ⟨a, ha, hra⟩ := ih b hb2
      exact ⟨a, List.mem_cons_of_mem _ ha, hra⟩

/-- Basic facts every reachable node satisfies: a positive level, a non-empty
text, and no CR in the text (neither the input sanitization, the regex
capture, nor the modeled HTML decoding can produce one). -/
theorem reachable_levels_texts (ns : List (Nat × List Char)) (h : ReachableOutline ns) :
    ∀ n ∈ ns, 1 ≤ n.1 ∧ n.2 ≠ [] ∧ '\r' ∉ n.2 := by
  induction h with
  | load s ns hf =>
    intro n hn
    obtain ⟨m, hm, hR⟩ := forall₂_right_mem hf n hn
    obtain ⟨l, _, hmh⟩ := List.mem_filterMap.mp hm
    obtain ⟨hlv, htail⟩ := tryHash_sound (hashRun l) l m.1 m.2 (by
      simpa [matchHeading] using hmh)
    obtain ⟨hne, _, _⟩ := matchTail_sound _ _ htail
    exact ⟨hR.1 ▸ hlv, innerHTML_ne_nil hR.2 hne, innerHTML_not_cr hR.2⟩
  | add ns raw t lvl _ hd hdec hlv _ ih =>
    intro n hn
    rcases List.mem_append.mp hn with hn2 | hn2
    · exact ih n hn2
    · have he : n = (lvl, t) := by simpa using hn2
      subst he
      exact ⟨hlv, innerHTML_ne_nil hdec hd.1, innerHTML_not_cr hdec⟩
  | edit pre m post t lvl _ hd hlv _ ih =>
    intro n hn
    rcases List.mem_append.mp hn with hn2 | hn2
    · exact ih n (List.mem_append.mpr (Or.inl hn2))
    · rcases List.mem_cons.mp hn2 with rfl | hn3
      · exact ⟨hlv, hd.1, hd.2.2.2⟩
      · exact ih n (List.mem_append.mpr (Or.inr (List.mem_cons_of_mem m hn3)))
  | del pre m post _ ih =>
    intro n hn
    rcases List.mem_append.mp hn with hn2 | hn2
    · exact ih n (List.mem_append.mpr (Or.inl hn2))
    · exact ih n (List.mem_append.mpr (Or.inr (List.mem_cons_of_mem m hn2)))
  | reorder ns ms _ hperm ih =>
    intro n hn
    exact ih n (hperm.mem_iff.mpr hn)

/-- A text that does not begin with JS whitespace unless it is a single
character (the shape under which the regex's greedy `\s*` cannot steal part
of it). -/
def headNotWsOrSingle (t : List Char) : Bool :=
  match t with
  | [] => true
  | [_] => true
  | c :: _ :: _ => !isWhitespaceJS c

theorem headNotWsOrSingle_spec (t : List Char) (h : headNotWsOrSingle t = true) :
    ∀ c rest, t = c :: rest → isWhitespaceJS c = true → rest = [] := by
  intro c rest he hw
  subst he
  cases rest with
  | nil => rfl
  | cons d rest2 =>
    rw [headNotWsOrSingle, hw] at h
    exact absurd h (by decide)

/-- C6 (amended): for every reachable node list whose stored texts are
non-empty, contain no newline, carriage return or U+2028/U+2029 line
separator, and do not begin with JS whitespace (unless the text is a single
character), serializing with `updateOutlineData` and re-parsing with the
heading filter and regex returns exactly the same `(level, text)` pairs in
the same order.  Reachable texts can violate the conditions (see the
counterexample for the leading-whitespace one), so the restriction is
necessary.  Within the modeled decoding fragment the non-empty and no-CR
conditions are derivable (`reachable_levels_texts`); they are stated
anyway because the browser can also store an empty text (a markup-only
input) or a CR (a `&#13;` reference), which equally break the round
trip. -/
theorem outline_roundtrip (ns : List (Nat × List Char)) (hreach : ReachableOutline ns)
    (htext : ∀ n ∈ ns, n.2 ≠ [] ∧ '\n' ∉ n.2 ∧ '\r' ∉ n.2
      ∧ (∀ c ∈ n.2, c.toNat ≠ 0x2028 ∧ c.toNat ≠ 0x2029)
      ∧ headNotWsOrSingle n.2 = true) :
    displayOutlineInSidebar (updateOutlineData ns) = ns := by
  have hbasic := reachable_levels_texts ns hreach
  have hterm : ∀ n ∈ ns, noLineTerm n.2 = true := by
    intro n hn
    rw [noLineTerm, List.all_eq_true]
    intro c hc
    have hne1 : ¬ (c = '\n') := fun h => (htext n hn).2.1 (h ▸ hc)
    have hne2 : ¬ (c = '\r') := fun h => (htext n hn).2.2.1 (h ▸ hc)
    simp [isLineTerm, hne1, hne2, ((htext n hn).2.2.2.1 c hc).1,
      ((htext n hn).2.2.2.1 c hc).2]
  by_cases hns : ns = []
  · subst hns; rfl
  · have hlines_ne : ns.map (fun n => List.replicate n.1 '#' ++ ' ' :: n.2) ≠ [] := by
      simp [hns]
    have hnomem : ∀ l ∈ ns.map (fun n => List.replicate n.1 '#' ++ ' ' :: n.2),
        '\n' ∉ l := by
      intro l hl
      obtain ⟨n, hn, rfl⟩ := List.mem_map.mp hl
      intro hmem
      rcases List.mem_append.mp hmem with h1 | h1
      · exact absurd (List.eq_of_mem_replicate h1) (by decide)
      · rcases List.mem_cons.mp h1 with h2 | h2
        · exact absurd h2 (by decide)
        · exact (htext n hn).2.1 h2
    have hsplit : (updateOutlineData ns).splitOn '\n'
        = ns.map (fun n => List.replicate n.1 '#' ++ ' ' :: n.2) :=
      List.splitOn_intercalate _ '\n' hnomem hlines_ne
    have hfilter : (ns.map (fun n => List.replicate n.1 '#' ++ ' ' :: n.2)).filter
        headingTest = ns.map (fun n => List.replicate n.1 '#' ++ ' ' :: n.2) := by
      refine List.filter_eq_self.mpr ?_
      intro l hl
      obtain ⟨n, hn, rfl⟩ := List.mem_map.mp hl
      exact headingTest_serialized n.2 n.1 (hbasic n hn).1
    have hfm : (ns.map (fun n => List.replicate n.1 '#' ++ ' ' :: n.2)).filterMap
        matchHeading = ns := by
      rw [List.filterMap_map]
      refine filterMap_eq_self_of _ ns ?_
      intro n hn
      simpa using matchHeading_serialized n.2 n.1 (hbasic n hn).1 (htext n hn).1
        (hterm n hn) (headNotWsOrSingle_spec n.2 (htext n hn).2.2.2.2)
    rw [displayOutlineInSidebar, hsplit, hfilter, hfm]

/-- C6 counterexample: entering `&nbsp;x` into the Add dialog stores the text
NBSP·`x` — `.trim()` runs before the `innerHTML` assignment decodes the named
reference, so the leading no-break space survives into the stored
`textContent`.  The node `(1, NBSP·x)` is therefore reachable, but its
serialized line `# \u00A0x` re-parses to `(1, x)`: the regex's greedy `\s*`
swallows the no-break space (JS whitespace), the pairs differ, and the
claimed round trip fails. -/
theorem outline_roundtrip_counterexample :
    ReachableOutline [(1, [nbspChar, 'x'])]
    ∧ displayOutlineInSidebar (updateOutlineData [(1, [nbspChar, 'x'])]) = [(1, ['x'])]
    ∧ displayOutlineInSidebar (updateOutlineData [(1, [nbspChar, 'x'])])
      ≠ [(1, [nbspChar, 'x'])] := by
  refine ⟨?_, by decide, by decide⟩
  have hnil : displayOutlineInSidebar [] = [] := by decide
  have h0 : ReachableOutline ([] : List (Nat × List Char)) :=
    ReachableOutline.load [] [] (by rw [hnil]; exact List.Forall₂.nil)
  have hx : InnerHTMLTextContent ['x'] ['x'] :=
    InnerHTMLTextContent.lit 'x' [] [] (by decide) InnerHTMLTextContent.nil
  have hdec : InnerHTMLTextContent ['&', 'n', 'b', 's', 'p', ';', 'x'] [nbspChar, 'x'] := by
    have h := InnerHTMLTextContent.ref ['n', 'b', 's', 'p', ';'] nbspChar ['x'] ['x']
      CharRefDecode.nbsp hx
    simpa using h
  have h1 := ReachableOutline.add [] ['&', 'n', 'b', 's', 'p', ';', 'x'] [nbspChar, 'x'] 1
    h0 ⟨by decide, by decide, by decide, by decide⟩ hdec (by decide) (by decide)
  simpa using h1

/-- Witness for C6: the parse of `# alpha\n## beta` is reachable (Load with
the identity HTML decoding, both texts being plain) and round-trips to
itself. -/
theorem outline_roundtrip_witness :
    displayOutlineInSidebar
        (updateOutlineData (displayOutlineInSidebar "# alpha\n## beta".data))
      = displayOutlineInSidebar "# alpha\n## beta".data := by
  refine outline_roundtrip _ ?_ (by decide)
  refine ReachableOutline.load "# alpha\n## beta".data _ ?_
  have hs : displayOutlineInSidebar "# alpha\n## beta".data
      = [(1, "alpha".data), (2, "beta".data)] := by decide
  rw [hs]
  exact List.Forall₂.cons ⟨rfl, innerHTML_self _ (by decide)⟩
    (List.Forall₂.cons ⟨rfl, innerHTML_self _ (by decide)⟩ List.Forall₂.nil)
